import Mathlib

/-!
Shallow embedding of the markdown-merge pipeline of the `doc` repository
(`merge.go` and the file scanner / sorter), over `List Char` documents.

Go strings are modelled as `List Char`; splitting on newlines, trimming of
whitespace, glob filtering, sorting, header extraction and header rewriting
are translated function by function from the source.
-/

namespace Doc

/-- Whitespace predicate used by Go's `strings.TrimSpace`
(`unicode.IsSpace`); modelled on its Latin-1 members:
space, tab, newline, vertical tab, form feed, carriage return,
next line (U+0085) and no-break space (U+00A0). -/
def isSpace (c : Char) : Bool :=
  c = ' ' || c = '\t' || c = '\n' || c = '\x0b' || c = '\x0c' || c = '\r' ||
  c = '\x85' || c = '\xA0'

/-- Drop leading whitespace (the left half of `strings.TrimSpace`). -/
def trimLeft : List Char → List Char
  | [] => []
  | c :: cs => if isSpace c then trimLeft cs else c :: cs

/-- Drop trailing whitespace (the right half of `strings.TrimSpace`). -/
def trimRight (l : List Char) : List Char :=
  (trimLeft l.reverse).reverse

/-- Go's `strings.TrimSpace`: drop leading and trailing whitespace. -/
def trimSpace (l : List Char) : List Char :=
  trimRight (trimLeft l)

/-- Length of the leading run of `'#'` characters of a line; the loop
`for _, char := range line { if char == '#' { level++ } else { break } }`
of `adjustHeaderLevels` in `merge.go`. -/
def countHashes : List Char → Nat
  | [] => 0
  | c :: cs => if c = '#' then countHashes cs + 1 else 0

/-- Go's `strings.Split(content, "\n")`: the list of lines of a document;
always nonempty, and splitting the empty string yields one empty line. -/
def splitLines : List Char → List (List Char)
  | [] => [[]]
  | c :: cs =>
    if c = '\n' then [] :: splitLines cs
    else
      match splitLines cs with
      | [] => [[c]]
      | l :: ls => (c :: l) :: ls

/-- Go's `strings.Join(lines, "\n")`. -/
def joinLines : List (List Char) → List Char
  | [] => []
  | [l] => l
  | l :: ls => l ++ '\n' :: joinLines ls

/-- Go's `<` on strings: lexicographic order (bytewise, which agrees with
codepoint order on well-formed UTF-8). -/
def lexLt : List Char → List Char → Bool
  | _, [] => false
  | [], _ :: _ => true
  | a :: as, b :: bs => if a < b then true else if b < a then false else lexLt as bs

/-- A markdown header, `type Header struct { Level int; Text string }`
of `merge.go`. -/
structure Header where
  level : Nat
  text : List Char
deriving DecidableEq, Repr

/-- The body of the per-line loop of `extractHeaders` in `merge.go`:
trim the line; if it starts with `'#'`, count the leading `'#'` run and,
at the first non-`'#'` character, emit a header when
`0 < level ∧ level ≤ maxDepth`.  When the trimmed line consists solely of
`'#'` characters the Go loop runs off the end without reaching its `else`
branch, so no header is emitted. -/
def extractLine (maxDepth : Nat) (line : List Char) : Option Header :=
  let t := trimSpace line
  if t.head? = some '#' then
    if t.drop (countHashes t) = [] then none
    else if 0 < countHashes t ∧ countHashes t ≤ maxDepth then
      some ⟨countHashes t, trimSpace (t.drop (countHashes t))⟩
    else none
  else none

/-- `extractHeaders` of `merge.go`: headers of every line, in order. -/
def extractHeaders (content : List Char) (maxDepth : Nat) : List Header :=
  (splitLines content).filterMap (extractLine maxDepth)

/-- The per-line body of `adjustHeaderLevels` in `merge.go`: when the
trimmed line starts with `'#'` and the raw line carries a leading `'#'`
run of length `level > 0`, replace it by
`min 6 (baseLevel + level - 1)` hashes, a space, and the trimmed rest. -/
def adjustLine (b : Nat) (line : List Char) : List Char :=
  if (trimSpace line).head? = some '#' then
    if 0 < countHashes line then
      List.replicate (min 6 (b + countHashes line - 1)) '#' ++
        ' ' :: trimSpace (line.drop (countHashes line))
    else line
  else line

/-- `adjustHeaderLevels` of `merge.go`: split into lines, rewrite each
line, join with newlines. -/
def adjustHeaderLevels (content : List Char) (baseLevel : Nat) : List Char :=
  joinLines ((splitLines content).map (adjustLine baseLevel))

/-- The character map applied to TOC links in `writeTOC` of `merge.go`:
keep lowercase letters and digits, map space and hyphen to hyphen, drop
everything else. -/
def slugMap (c : Char) : Option Char :=
  if c = ' ' ∨ c = '-' then some '-'
  else if ('a' ≤ c ∧ c ≤ 'z') ∨ ('0' ≤ c ∧ c ≤ '9') then some c
  else none

/-- Slug derivation of `writeTOC` in `merge.go`:
`strings.ToLower(strings.ReplaceAll(text, " ", "-"))` followed by the
`strings.Map` call dropping characters outside lowercase/digit/hyphen. -/
def slugify (text : List Char) : List Char :=
  ((text.map (fun c => if c = ' ' then '-' else c)).map Char.toLower).filterMap slugMap

/-- One TOC entry of `writeTOC` in `merge.go`.  `none` models a Go panic:
the code computes `strings.Repeat("  ", adjustedLevel-2)` and
`strings.Repeat` panics when its count is negative, i.e. when
`adjustedLevel < 2`; `some none` models the `continue` that skips headers
beyond the depth bound; `some (some l)` is the emitted TOC line.
Extracted headers always have `level ≥ 1`, for which `Nat` subtraction in
`h.level + b - 1` agrees with Go's `int` arithmetic. -/
def tocEntry (b tocDepth : Nat) (h : Header) : Option (Option (List Char)) :=
  if tocDepth + 1 < h.level + b - 1 then some none
  else if h.level + b - 1 < 2 then none
  else some (some (List.replicate (2 * (h.level + b - 1 - 2)) ' ' ++
    "- [".toList ++ h.text ++ "](#".toList ++ slugify h.text ++ ")".toList))

/-- The merge-relevant fields of `CLIArgs`. -/
structure MergeArgs where
  baseLevel : Nat
  tocDepth : Nat
  adjustHeaders : Bool
  separator : List Char
deriving Repr

/-- The inner loop of `writeTOC`: fold `tocEntry` over the extracted
headers of one file, propagating a panic and dropping skipped headers. -/
def collectEntries (b tocDepth : Nat) : List Header → Option (List (List Char))
  | [] => some []
  | h :: hs =>
    match tocEntry b tocDepth h with
    | none => none
    | some none => collectEntries b tocDepth hs
    | some (some l) => (collectEntries b tocDepth hs).map (fun r => l :: r)

/-- The file loop of `writeTOC` in `merge.go`.  Each input is the result
of `os.ReadFile`: `none` is a read error, which the code skips with
`continue`; `some content` is a successful read, whose extracted headers
become TOC lines.  The overall `none` models a panic inside `tocEntry`.
The surrounding literal writes (`"## Table of Contents\n\n"` and the
final newline) are omitted; the value is the list of TOC entry lines. -/
def writeTOCModel (args : MergeArgs) : List (Option (List Char)) → Option (List (List Char))
  | [] => some []
  | none :: fs => writeTOCModel args fs
  | some content :: fs =>
    match collectEntries args.baseLevel args.tocDepth (extractHeaders content args.tocDepth) with
    | none => none
    | some ls =>
      match writeTOCModel args fs with
      | none => none
      | some rest => some (ls ++ rest)

/-- `mergeFile` of `merge.go` (metadata comment omitted): a failed read
(`none`) aborts with an error; otherwise the content, with headers
adjusted when the flag is set, is written, followed by a newline when the
written content does not already end in one. -/
def mergeFileModel (args : MergeArgs) (file : Option (List Char)) : Option (List Char) :=
  match file with
  | none => none
  | some content =>
    let c := if args.adjustHeaders then adjustHeaderLevels content args.baseLevel else content
    some (if c.getLast? = some '\n' then c else c ++ ['\n'])

/-- The file loop of `mergeFiles` in `merge.go`: merge each file in
order, aborting on the first failure, writing the separator between
files (not after the last). -/
def mergeBody (args : MergeArgs) : List (Option (List Char)) → Option (List Char)
  | [] => some []
  | f :: fs =>
    match mergeFileModel args f with
    | none => none
    | some c =>
      match mergeBody args fs with
      | none => none
      | some rest => some (c ++ (if fs = [] then [] else args.separator) ++ rest)

/-- `type MarkdownFile struct` of the file scanner: path, base name,
modification time (as a timestamp) and size in bytes. -/
structure MarkdownFile where
  path : List Char
  name : List Char
  modTime : Int
  size : Int
deriving DecidableEq, Repr

/-- `matchPattern` of the file scanner: wrap `filepath.Match`, treating an
invalid pattern (an error result, here `none`) as a non-match.
`goMatch pattern name` abstracts the Go standard library's
`filepath.Match(pattern, name)`, whose error result is `none`. -/
def matchPattern (goMatch : List Char → List Char → Option Bool)
    (filename pattern : List Char) : Bool :=
  match goMatch pattern filename with
  | none => false
  | some m => m

/-- The per-file acceptance decision of the `walkFunc` in
`ScanMarkdownFiles`: reject unless the lowercased name ends in `".md"`,
then reject when include patterns exist and none matches, then reject
when some exclude pattern matches. -/
def fileAccepted (goMatch : List Char → List Char → Option Bool)
    (includePatterns excludePatterns : List (List Char)) (name : List Char) : Bool :=
  if ".md".toList.isSuffixOf (name.map Char.toLower) = false then false
  else if 0 < includePatterns.length ∧
      includePatterns.any (fun p => matchPattern goMatch name p) = false then false
  else if excludePatterns.any (fun p => matchPattern goMatch name p) = true then false
  else true

/-- Insert `a` into `l` before the first element not less than `a`. -/
def insertBy (lt : α → α → Bool) (a : α) : List α → List α
  | [] => [a]
  | b :: bs => if lt b a then b :: insertBy lt a bs else a :: b :: bs

/-- Deterministic model of `sort.Slice`: insertion sort with the given
strict comparison (the result is a permutation of the input that is
non-decreasing for the comparison, which is all `sort.Slice` promises). -/
def sortBy (lt : α → α → Bool) : List α → List α
  | [] => []
  | a :: as => insertBy lt a (sortBy lt as)

/-- The `"filename"` comparison of `SortMarkdownFiles`:
`sorted[i].Name < sorted[j].Name`. -/
def nameLt (a b : MarkdownFile) : Bool :=
  lexLt a.name b.name

/-- `SortMarkdownFiles` of the file scanner: dispatch on the order
selector; `"custom"` is unimplemented (TODO in the source) and the
`default` branch likewise falls back to the filename comparison. -/
def SortMarkdownFiles (files : List MarkdownFile) (order : List Char) : List MarkdownFile :=
  if order = "filename".toList then sortBy nameLt files
  else if order = "modified".toList then
    sortBy (fun a b => decide (a.modTime < b.modTime)) files
  else if order = "size".toList then
    sortBy (fun a b => decide (a.size < b.size)) files
  else if order = "custom".toList then sortBy nameLt files
  else sortBy nameLt files

/-! ### Lemmas about trimming -/

theorem trimLeft_cons_space {c : Char} (h : isSpace c = true) (t : List Char) :
    trimLeft (c :: t) = trimLeft t := by
  simp [trimLeft, h]

theorem trimLeft_cons_nospace {c : Char} (h : isSpace c = false) (t : List Char) :
    trimLeft (c :: t) = c :: t := by
  simp [trimLeft, h]

theorem trimLeft_idem (l : List Char) : trimLeft (trimLeft l) = trimLeft l := by
  induction l with
  | nil => rfl
  | cons c cs ih =>
    by_cases h : isSpace c = true
    · rw [trimLeft_cons_space h, ih]
    · rw [trimLeft_cons_nospace (by simpa using h),
        trimLeft_cons_nospace (by simpa using h)]

theorem trimLeft_length (l : List Char) : (trimLeft l).length ≤ l.length := by
  induction l with
  | nil => simp [trimLeft]
  | cons c cs ih =>
    by_cases h : isSpace c = true
    · rw [trimLeft_cons_space h]; simpa using Nat.le_succ_of_le ih
    · rw [trimLeft_cons_nospace (by simpa using h)]

theorem trimLeft_head_nospace {l : List Char} {c : Char}
    (h : (trimLeft l).head? = some c) : isSpace c = false := by
  induction l with
  | nil => simp [trimLeft] at h
  | cons d ds ih =>
    by_cases hd : isSpace d = true
    · rw [trimLeft_cons_space hd] at h; exact ih h
    · rw [trimLeft_cons_nospace (by simpa using hd)] at h
      simp at h
      subst h
      simpa using hd

theorem trimLeft_append_last {c : Char} (h : isSpace c = false) :
    ∀ xs : List Char, ∃ ys, trimLeft (xs ++ [c]) = ys ++ [c] := by
  intro xs
  induction xs with
  | nil => exact ⟨[], by rw [List.nil_append, trimLeft_cons_nospace h]⟩
  | cons x xs ih =>
    by_cases hx : isSpace x = true
    · rw [List.cons_append, trimLeft_cons_space hx]; exact ih
    · exact ⟨x :: xs, by rw [List.cons_append, trimLeft_cons_nospace (by simpa using hx)]⟩

theorem trimRight_cons_nospace {c : Char} (h : isSpace c = false) (t : List Char) :
    ∃ ys, trimRight (c :: t) = c :: ys := by
  obtain ⟨ys, hys⟩ := trimLeft_append_last h t.reverse
  refine ⟨ys.reverse, ?_⟩
  simp [trimRight, hys]

theorem trimSpace_cons_space {c : Char} (h : isSpace c = true) (t : List Char) :
    trimSpace (c :: t) = trimSpace t := by
  simp [trimSpace, trimLeft_cons_space h]

theorem trimSpace_head {c : Char} (h : isSpace c = false) (t : List Char) :
    (trimSpace (c :: t)).head? = some c := by
  rw [trimSpace, trimLeft_cons_nospace h]
  obtain ⟨ys, hys⟩ := trimRight_cons_nospace h t
  simp [hys]

theorem trimRight_idem (l : List Char) : trimRight (trimRight l) = trimRight l := by
  simp [trimRight, trimLeft_idem]

theorem trimLeft_fix_of_trimRight {w : List Char} (h : trimLeft w = w) :
    trimLeft (trimRight w) = trimRight w := by
  cases w with
  | nil => simp [trimRight, trimLeft]
  | cons c cs =>
    have hc : isSpace c = false := by
      by_contra hc
      have hc' : isSpace c = true := by simpa using hc
      rw [trimLeft_cons_space hc'] at h
      have := trimLeft_length cs
      have := congrArg List.length h
      simp at this
      omega
    obtain ⟨ys, hys⟩ := trimRight_cons_nospace hc cs
    rw [hys, trimLeft_cons_nospace hc]

theorem trimSpace_idem (l : List Char) : trimSpace (trimSpace l) = trimSpace l := by
  rw [trimSpace, trimSpace, trimLeft_fix_of_trimRight (trimLeft_idem l), trimRight_idem]

theorem mem_trimLeft {x : Char} {l : List Char} (h : x ∈ trimLeft l) : x ∈ l := by
  induction l with
  | nil => simpa [trimLeft] using h
  | cons c cs ih =>
    by_cases hc : isSpace c = true
    · rw [trimLeft_cons_space hc] at h; exact List.mem_cons_of_mem _ (ih h)
    · rwa [trimLeft_cons_nospace (by simpa using hc)] at h

theorem mem_trimSpace {x : Char} {l : List Char} (h : x ∈ trimSpace l) : x ∈ l := by
  rw [trimSpace, trimRight] at h
  rw [List.mem_reverse] at h
  have := mem_trimLeft h
  rw [List.mem_reverse] at this
  exact mem_trimLeft this

/-! ### Lemmas about hash runs -/

theorem countHashes_pos {l : List Char} (h : 0 < countHashes l) :
    l.head? = some '#' := by
  cases l with
  | nil => simp [countHashes] at h
  | cons c cs =>
    by_cases hc : c = '#'
    · simp [hc]
    · simp [countHashes, hc] at h

theorem countHashes_replicate_append (n : Nat) (t : List Char) :
    countHashes (List.replicate n '#' ++ ' ' :: t) = n := by
  induction n with
  | zero => simp [countHashes]
  | succ n ih => simpa [countHashes, List.replicate_succ] using ih

theorem drop_replicate_append (n : Nat) (c : Char) (t : List Char) :
    (List.replicate n c ++ t).drop n = t := by
  induction n with
  | zero => simp
  | succ n ih => simpa [List.replicate_succ] using ih

theorem countHashes_all_hash {l : List Char} (h : l.all (fun c => c = '#') = true) :
    countHashes l = l.length := by
  induction l with
  | nil => rfl
  | cons c cs ih =>
    simp only [List.all_cons, Bool.and_eq_true, decide_eq_true_eq] at h
    simp [countHashes, h.1, ih h.2]

/-! ### Lemmas about line splitting and joining -/

theorem splitLines_ne_nil (cs : List Char) : splitLines cs ≠ [] := by
  induction cs with
  | nil => simp [splitLines]
  | cons c cs ih =>
    by_cases hc : c = '\n'
    · simp [splitLines, hc]
    · simp only [splitLines, hc, if_false]
      cases hs : splitLines cs with
      | nil => simp
      | cons l ls => simp

theorem mem_splitLines_no_newline {cs : List Char} :
    ∀ l ∈ splitLines cs, '\n' ∉ l := by
  induction cs with
  | nil => intro l hl; simp [splitLines] at hl; simp [hl]
  | cons c cs ih =>
    intro l hl
    by_cases hc : c = '\n'
    · simp only [splitLines, hc, if_true] at hl
      rcases List.mem_cons.mp hl with h | h
      · simp [h]
      · exact ih l h
    · simp only [splitLines, hc, if_false] at hl
      cases hs : splitLines cs with
      | nil => exact absurd hs (splitLines_ne_nil cs)
      | cons l₀ ls =>
        rw [hs] at hl
        rcases List.mem_cons.mp hl with h | h
        · subst h
          intro hmem
          rcases List.mem_cons.mp hmem with h | h
          · exact hc h.symm
          · exact ih l₀ (hs ▸ List.mem_cons_self _ _) h
        · exact ih l (hs ▸ List.mem_cons_of_mem _ h)

theorem splitLines_of_no_newline {l : List Char} (h : '\n' ∉ l) :
    splitLines l = [l] := by
  induction l with
  | nil => rfl
  | cons c cs ih =>
    have hc : ¬ c = '\n' := fun hh => h (hh ▸ List.mem_cons_self _ _)
    have hcs : '\n' ∉ cs := fun hh => h (List.mem_cons_of_mem _ hh)
    simp only [splitLines, hc, if_false, ih hcs]

theorem splitLines_append_newline {l : List Char} (h : '\n' ∉ l) (rest : List Char) :
    splitLines (l ++ '\n' :: rest) = l :: splitLines rest := by
  induction l with
  | nil => simp [splitLines]
  | cons c cs ih =>
    have hc : ¬ c = '\n' := fun hh => h (hh ▸ List.mem_cons_self _ _)
    have hcs : '\n' ∉ cs := fun hh => h (List.mem_cons_of_mem _ hh)
    simp only [List.cons_append, splitLines, hc, if_false, List.append_eq]
    rw [ih hcs]

theorem splitLines_joinLines {ls : List (List Char)}
    (h : ∀ l ∈ ls, '\n' ∉ l) (hne : ls ≠ []) :
    splitLines (joinLines ls) = ls := by
  induction ls with
  | nil => exact absurd rfl hne
  | cons l ls ih =>
    cases ls with
    | nil =>
      simp only [joinLines]
      exact splitLines_of_no_newline (h l (List.mem_cons_self _ _))
    | cons l' ls' =>
      have hl : '\n' ∉ l := h l (List.mem_cons_self _ _)
      show splitLines (l ++ '\n' :: joinLines (l' :: ls')) = _
      rw [splitLines_append_newline hl,
        ih (fun x hx => h x (List.mem_cons_of_mem _ hx)) (by simp)]

/-! ### Lemmas about header rewriting -/

theorem adjustLine_of_hash {line : List Char} (b : Nat)
    (h1 : (trimSpace line).head? = some '#') (h2 : 0 < countHashes line) :
    adjustLine b line =
      List.replicate (min 6 (b + countHashes line - 1)) '#' ++
        ' ' :: trimSpace (line.drop (countHashes line)) := by
  rw [adjustLine, if_pos h1, if_pos h2]

theorem adjustLine_of_zero {line : List Char} (b : Nat)
    (h2 : countHashes line = 0) : adjustLine b line = line := by
  rw [adjustLine]
  by_cases h1 : (trimSpace line).head? = some '#'
  · rw [if_pos h1, if_neg (by omega)]
  · rw [if_neg h1]

theorem trimSpace_head_of_hash {line : List Char} (h : 0 < countHashes line) :
    (trimSpace line).head? = some '#' := by
  have hh := countHashes_pos h
  cases line with
  | nil => simp at hh
  | cons c cs =>
    simp only [List.head?_cons, Option.some.injEq] at hh
    subst hh
    exact trimSpace_head (by decide) cs

theorem adjustLine_no_newline {b : Nat} {line : List Char}
    (h : '\n' ∉ line) : '\n' ∉ adjustLine b line := by
  rw [adjustLine]
  by_cases h1 : (trimSpace line).head? = some '#'
  · rw [if_pos h1]
    by_cases h2 : 0 < countHashes line
    · rw [if_pos h2]
      intro hmem
      rcases List.mem_append.mp hmem with hm | hm
      · exact absurd (List.eq_of_mem_replicate hm) (by decide)
      · rcases List.mem_cons.mp hm with hm | hm
        · exact absurd hm (by decide)
        · exact h (List.drop_subset _ _ (mem_trimSpace hm))
    · rwa [if_neg h2]
  · rwa [if_neg h1]

theorem splitLines_adjust (content : List Char) (b : Nat) :
    splitLines (adjustHeaderLevels content b) =
      (splitLines content).map (adjustLine b) := by
  rw [adjustHeaderLevels]
  refine splitLines_joinLines ?_ ?_
  · intro l hl
    rcases List.mem_map.mp hl with ⟨l₀, hl₀, rfl⟩
    exact adjustLine_no_newline (mem_splitLines_no_newline l₀ hl₀)
  · simpa using splitLines_ne_nil content

theorem countHashes_adjustLine {line : List Char} (b : Nat)
    (h : 0 < countHashes line) :
    countHashes (adjustLine b line) = min 6 (b + countHashes line - 1) := by
  rw [adjustLine_of_hash b (trimSpace_head_of_hash h) h]
  exact countHashes_replicate_append _ _

theorem adjustLine_idem {b : Nat} (hb : 1 ≤ b)
    (harith : ∀ L, 1 ≤ L → min 6 (b + min 6 (b + L - 1) - 1) = min 6 (b + L - 1))
    (line : List Char) : adjustLine b (adjustLine b line) = adjustLine b line := by
  by_cases h2 : 0 < countHashes line
  · have h1 := trimSpace_head_of_hash h2
    have heq := adjustLine_of_hash b h1 h2
    set L := countHashes line with hL
    set N := min 6 (b + L - 1) with hN
    have hNpos : 0 < N := by omega
    have hcount : countHashes (adjustLine b line) = N := by
      rw [heq]; exact countHashes_replicate_append _ _
    have h1' : (trimSpace (adjustLine b line)).head? = some '#' :=
      trimSpace_head_of_hash (hcount ▸ hNpos)
    rw [adjustLine_of_hash b h1' (hcount ▸ hNpos), hcount, heq]
    rw [drop_replicate_append]
    rw [trimSpace_cons_space (by decide), trimSpace_idem]
    rw [harith L h2]
  · have h2' : countHashes line = 0 := by omega
    rw [adjustLine_of_zero b h2', adjustLine_of_zero b h2']

theorem adjustHeaderLevels_idem {b : Nat} (hb : 1 ≤ b)
    (harith : ∀ L, 1 ≤ L → min 6 (b + min 6 (b + L - 1) - 1) = min 6 (b + L - 1))
    (content : List Char) :
    adjustHeaderLevels (adjustHeaderLevels content b) b =
      adjustHeaderLevels content b := by
  conv_lhs => rw [adjustHeaderLevels, splitLines_adjust, List.map_map]
  rw [adjustHeaderLevels]
  congr 1
  exact List.map_congr_left (fun l _ => adjustLine_idem hb harith l)

/-! ### Lemmas about sorting -/

theorem mem_insertBy {lt : α → α → Bool} {a x : α} {l : List α}
    (h : x ∈ insertBy lt a l) : x = a ∨ x ∈ l := by
  induction l with
  | nil => simpa [insertBy] using h
  | cons b bs ih =>
    rw [insertBy] at h
    by_cases hb : lt b a = true
    · rw [if_pos hb] at h
      rcases List.mem_cons.mp h with h | h
      · exact Or.inr (h ▸ List.mem_cons_self _ _)
      · rcases ih h with h | h
        · exact Or.inl h
        · exact Or.inr (List.mem_cons_of_mem _ h)
    · rw [if_neg hb] at h
      rcases List.mem_cons.mp h with h | h
      · exact Or.inl h
      · exact Or.inr h

theorem pairwise_insertBy {lt : α → α → Bool}
    (hasymm : ∀ a b, lt a b = true → lt b a = false)
    (hneg : ∀ a b c, lt a b = false → lt b c = false → lt a c = false)
    {l : List α} (a : α) (h : l.Pairwise (fun x y => lt y x = false)) :
    (insertBy lt a l).Pairwise (fun x y => lt y x = false) := by
  induction l with
  | nil => simp [insertBy]
  | cons b bs ih =>
    rw [List.pairwise_cons] at h
    rw [insertBy]
    by_cases hb : lt b a = true
    · rw [if_pos hb, List.pairwise_cons]
      refine ⟨?_, ih h.2⟩
      intro y hy
      rcases mem_insertBy hy with rfl | hy
      · exact hasymm b y hb
      · exact h.1 y hy
    · rw [if_neg hb, List.pairwise_cons]
      refine ⟨?_, List.pairwise_cons.mpr h⟩
      intro y hy
      rcases List.mem_cons.mp hy with rfl | hy
      · simpa using hb
      · exact hneg y b a (h.1 y hy) (by simpa using hb)

theorem sortBy_pairwise {lt : α → α → Bool}
    (hasymm : ∀ a b, lt a b = true → lt b a = false)
    (hneg : ∀ a b c, lt a b = false → lt b c = false → lt a c = false)
    (l : List α) : (sortBy lt l).Pairwise (fun x y => lt y x = false) := by
  induction l with
  | nil => simp [sortBy]
  | cons a as ih => exact pairwise_insertBy hasymm hneg a ih

theorem sortBy_eq_of_pairwise {lt : α → α → Bool} {l : List α}
    (h : l.Pairwise (fun x y => lt y x = false)) : sortBy lt l = l := by
  induction l with
  | nil => rfl
  | cons a as ih =>
    rw [List.pairwise_cons] at h
    rw [sortBy, ih h.2]
    cases as with
    | nil => rfl
    | cons b bs =>
      rw [insertBy, if_neg (by simp [h.1 b (List.mem_cons_self _ _)])]

theorem sortBy_idem {lt : α → α → Bool}
    (hasymm : ∀ a b, lt a b = true → lt b a = false)
    (hneg : ∀ a b c, lt a b = false → lt b c = false → lt a c = false)
    (l : List α) : sortBy lt (sortBy lt l) = sortBy lt l :=
  sortBy_eq_of_pairwise (sortBy_pairwise hasymm hneg l)

theorem lexLt_asymm : ∀ a b : List Char, lexLt a b = true → lexLt b a = false := by
  intro a
  induction a with
  | nil =>
    intro b _
    cases b with
    | nil => rfl
    | cons c cs => rfl
  | cons x xs ih =>
    intro b hab
    cases b with
    | nil => simp [lexLt] at hab
    | cons y ys =>
      by_cases h1 : x < y
      · have h2 : ¬ y < x := fun hc => absurd (lt_trans h1 hc) (lt_irrefl x)
        simp [lexLt, h1, h2]
      · by_cases h2 : y < x
        · simp [lexLt, h1, h2] at hab
        · simp only [lexLt, h1, h2, if_false] at hab ⊢
          exact ih ys hab

theorem lexLt_negtrans :
    ∀ a b c : List Char, lexLt a b = false → lexLt b c = false →
      lexLt a c = false := by
  intro a
  induction a with
  | nil =>
    intro b c hab hbc
    cases c with
    | nil => rfl
    | cons z zs =>
      cases b with
      | nil => simpa [lexLt] using hbc
      | cons y ys => simp [lexLt] at hab
  | cons x xs ih =>
    intro b c hab hbc
    cases c with
    | nil => rfl
    | cons z zs =>
      cases b with
      | nil => simp [lexLt] at hbc
      | cons y ys =>
        by_cases h1 : x < y
        · simp [lexLt, h1] at hab
        · by_cases h2 : y < z
          · simp [lexLt, h2] at hbc
          · have hyx : y ≤ x := le_of_not_lt h1
            have hzy : z ≤ y := le_of_not_lt h2
            have hxz : ¬ x < z := not_lt.mpr (hzy.trans hyx)
            by_cases hzx : z < x
            · simp [lexLt, hxz, hzx]
            · have hxz' : x ≤ z := le_of_not_lt hzx
              have hyx' : ¬ y < x := not_lt.mpr (hxz'.trans hzy)
              have hzy' : ¬ z < y := not_lt.mpr (hyx.trans hxz')
              simp only [lexLt, h1, hyx', if_false] at hab
              simp only [lexLt, h2, hzy', if_false] at hbc
              simp only [lexLt, hxz, hzx, if_false]
              exact ih ys zs hab hbc

/-! ### Lemmas about header extraction -/

theorem extractLine_all_hash (maxDepth : Nat) {line : List Char}
    (h : (trimSpace line).all (fun c => c = '#') = true) :
    extractLine maxDepth line = none := by
  simp only [extractLine]
  cases ht : trimSpace line with
  | nil => simp
  | cons c cs =>
    rw [ht] at h
    have hlen := countHashes_all_hash h
    simp only [List.all_cons, Bool.and_eq_true, decide_eq_true_eq] at h
    obtain ⟨rfl, -⟩ := h
    rw [if_pos (by simp), hlen, List.drop_length, if_pos rfl]

/-- The arithmetic fixed-point condition making header rewriting
idempotent at a given base level; it holds exactly for base 1 and 6. -/
theorem adjust_arith_base1 :
    ∀ L, 1 ≤ L → min 6 (1 + min 6 (1 + L - 1) - 1) = min 6 (1 + L - 1) := by
  intro L hL; omega

theorem adjust_arith_base6 :
    ∀ L, 1 ≤ L → min 6 (6 + min 6 (6 + L - 1) - 1) = min 6 (6 + L - 1) := by
  intro L hL; omega

/-! ### Claim theorems -/

/-- Claim C1 (code bug): with TOC generation enabled, a level-1 header
and base level 1 give `adjustedLevel = 1`, which passes the depth filter,
and the code then calls `strings.Repeat("  ", adjustedLevel-2)` with a
negative count, which panics (modelled as `none`) instead of clamping the
indentation to zero as the specification states. -/
theorem writeTOC_base1_level1_panics :
    writeTOCModel ⟨1, 3, true, []⟩ [some ("# A".toList)] = none ∧
    ∀ d : Nat, tocEntry 1 d ⟨1, ['A']⟩ = none := by
  refine ⟨by decide, fun d => ?_⟩
  have h : ¬ (d + 1 < 1 + 1 - 1) := by omega
  simp [tocEntry, h]

/-- Claim C2 counterexample: the line consisting of the two characters
`##` has a `'#'` run with empty remainder, yet `extractHeaders` produces
no entry for it at all (the Go loop never reaches its `else` branch), so
the claim that such lines are extracted with empty text is false. -/
theorem extract_allhash_cex :
    extractHeaders ("##".toList) 3 = [] ∧
    trimSpace ("##".toList) ≠ [] ∧
    (trimSpace ("##".toList)).all (fun c => c = '#') = true := by
  decide

/-- Claim C2 (amended): a line whose trimmed content is a run of `'#'`
characters with nothing after it produces no `HeaderEntry` whatsoever —
header extraction over a document is the per-line extraction filtered
over its lines, and per-line extraction returns nothing on such lines. -/
theorem extract_allhash_none (content : List Char) (maxDepth : Nat) :
    extractHeaders content maxDepth =
      (splitLines content).filterMap (extractLine maxDepth) ∧
    ∀ line, (trimSpace line).all (fun c => c = '#') = true →
      extractLine maxDepth line = none :=
  ⟨rfl, fun _ h => extractLine_all_hash maxDepth h⟩

/-- Witness for the amended claim C2, at the concrete line `##`. -/
theorem extract_allhash_none_w : extractLine 3 ("##".toList) = none :=
  (extract_allhash_none ("##".toList) 3).2 ("##".toList) (by decide)

/-- Claim C3 counterexample: header rewriting with base level 6 is
idempotent on every document (every header clamps to level 6, and a
second pass recomputes exactly level 6), although 6 is not 1 — so
idempotence does not hold only at base level 1. -/
theorem adjust_idem_base6_cex :
    (∀ content, adjustHeaderLevels (adjustHeaderLevels content 6) 6 =
      adjustHeaderLevels content 6) ∧ (6 : Nat) ≠ 1 :=
  ⟨fun content =>
    adjustHeaderLevels_idem (by omega) adjust_arith_base6 content, by omega⟩

/-- Claim C3 (amended): for base level b in 1..6, header rewriting with
base b is idempotent for every document if and only if b is 1 or 6; for
b in 2..5 a document with a level-1 header changes on the second pass. -/
theorem adjust_idem_iff (b : Nat) (hb1 : 1 ≤ b) (hb6 : b ≤ 6) :
    (∀ content, adjustHeaderLevels (adjustHeaderLevels content b) b =
      adjustHeaderLevels content b) ↔ (b = 1 ∨ b = 6) := by
  constructor
  · intro h
    by_contra hcon
    push_neg at hcon
    interval_cases b
    · exact hcon.1 rfl
    · have hx := h ("# A".toList); revert hx; decide
    · have hx := h ("# A".toList); revert hx; decide
    · have hx := h ("# A".toList); revert hx; decide
    · have hx := h ("# A".toList); revert hx; decide
    · exact hcon.2 rfl
  · rintro (rfl | rfl)
    · exact fun content =>
        adjustHeaderLevels_idem (by omega) adjust_arith_base1 content
    · exact fun content =>
        adjustHeaderLevels_idem (by omega) adjust_arith_base6 content

/-- Witness for the amended claim C3: base level 1 is idempotent on a
concrete document. -/
theorem adjust_idem_iff_w :
    adjustHeaderLevels (adjustHeaderLevels ("# A".toList) 1) 1 =
      adjustHeaderLevels ("# A".toList) 1 :=
  ((adjust_idem_iff 1 (by decide) (by decide)).mpr (Or.inl rfl)) ("# A".toList)

/-- Claim C4: rewriting splits the document into lines and rewrites each;
a line with a leading `'#'` run of length L becomes a header of level
exactly `min 6 (baseLevel + L - 1)` (so a level-6 header with base 2
stays at 6), and a line with no leading `'#'` run is never rewritten. -/
theorem adjust_level_formula (content : List Char) (b : Nat)
    (hb1 : 1 ≤ b) (hb6 : b ≤ 6) :
    splitLines (adjustHeaderLevels content b) =
      (splitLines content).map (adjustLine b) ∧
    ∀ line ∈ splitLines content,
      (1 ≤ countHashes line →
        countHashes (adjustLine b line) = min 6 (b + countHashes line - 1)) ∧
      (countHashes line = 0 → adjustLine b line = line) :=
  ⟨splitLines_adjust content b, fun line _ =>
    ⟨fun hL => countHashes_adjustLine b hL, fun h0 => adjustLine_of_zero b h0⟩⟩

/-- Witness for claim C4: a level-6 header rewritten with base level 2
keeps level 6 = min 6 (2 + 6 - 1). -/
theorem adjust_level_formula_w :
    countHashes (adjustLine 2 ("###### X".toList)) =
      min 6 (2 + countHashes ("###### X".toList) - 1) :=
  ((adjust_level_formula ("###### X".toList) 2 (by decide) (by decide)).2
    ("###### X".toList) (by decide)).1 (by decide)

/-- Claim C5 counterexample: the line with two leading spaces before
`# A` has trimmed content beginning with a `'#'` run, yet rewriting with
base level 2 leaves it completely unchanged (the code counts the run on
the raw line, finds level 0 and skips it) instead of replacing the run. -/
theorem adjust_indented_cex :
    adjustHeaderLevels ("  # A".toList) 2 = "  # A".toList ∧
    (trimSpace ("  # A".toList)).head? = some '#' ∧
    adjustHeaderLevels ("  # A".toList) 2 ≠ "## A".toList := by
  decide

/-- Claim C5 (amended): the rewrite replaces the `'#'` run only on lines
whose raw content begins with the run — producing exactly
`min 6 (baseLevel + L - 1)` hashes, one space, and the re-trimmed
remainder — and leaves every other line unchanged verbatim, including
lines whose `'#'` run is preceded by leading whitespace. -/
theorem adjust_line_exact (content : List Char) (b : Nat) :
    splitLines (adjustHeaderLevels content b) =
      (splitLines content).map (adjustLine b) ∧
    ∀ line ∈ splitLines content,
      (1 ≤ countHashes line →
        adjustLine b line =
          List.replicate (min 6 (b + countHashes line - 1)) '#' ++
            ' ' :: trimSpace (line.drop (countHashes line))) ∧
      (countHashes line = 0 → adjustLine b line = line) :=
  ⟨splitLines_adjust content b, fun line _ =>
    ⟨fun hL => adjustLine_of_hash b (trimSpace_head_of_hash hL) hL,
     fun h0 => adjustLine_of_zero b h0⟩⟩

/-- Witness for the amended claim C5, at a concrete level-2 header line
with base level 3. -/
theorem adjust_line_exact_w :
    adjustLine 3 ("## T".toList) =
      List.replicate (min 6 (3 + countHashes ("## T".toList) - 1)) '#' ++
        ' ' :: trimSpace (("## T".toList).drop (countHashes ("## T".toList))) :=
  ((adjust_line_exact ("## T".toList) 3).2 ("## T".toList) (by decide)).1 (by decide)

/-- Claim C6: a file passes the scanner's filter exactly when its
lowercased name ends in `.md`, the include list is empty or some include
glob matches, and no exclude glob matches; and a pattern on which
`filepath.Match` errors (an invalid glob, result `none`) counts as a
non-match rather than an error. -/
theorem scan_filter_iff (goMatch : List Char → List Char → Option Bool)
    (incl excl : List (List Char)) (name : List Char) :
    (fileAccepted goMatch incl excl name = true ↔
      (".md".toList.isSuffixOf (name.map Char.toLower) = true ∧
       (incl = [] ∨ ∃ p ∈ incl, matchPattern goMatch name p = true) ∧
       ∀ p ∈ excl, matchPattern goMatch name p = false)) ∧
    (∀ p n, goMatch p n = none → matchPattern goMatch n p = false) := by
  refine ⟨?_, fun p n h => by simp [matchPattern, h]⟩
  rw [fileAccepted]
  split_ifs with h1 h2 h3
  · constructor
    · intro h; exact absurd h (by simp)
    · rintro ⟨hs, -, -⟩; rw [hs] at h1; exact absurd h1 (by simp)
  · constructor
    · intro h; exact absurd h (by simp)
    · rintro ⟨-, hi, -⟩
      rcases hi with rfl | ⟨p, hp, hm⟩
      · simp at h2
      · rcases h2 with ⟨-, hany⟩
        rw [List.any_eq_false] at hany
        exact absurd hm (by simp [hany p hp])
  · constructor
    · intro h; exact absurd h (by simp)
    · rintro ⟨-, -, he⟩
      rw [List.any_eq_true] at h3
      rcases h3 with ⟨p, hp, hm⟩
      rw [he p hp] at hm
      exact absurd hm (by simp)
  · constructor
    · intro _
      refine ⟨by simpa using h1, ?_, ?_⟩
      · by_cases hi : incl = []
        · exact Or.inl hi
        · push_neg at h2
          have hlen : 0 < incl.length := List.length_pos.mpr hi
          have hany := h2 hlen
          have hany' : incl.any (fun p => matchPattern goMatch name p) = true := by
            revert hany
            cases incl.any (fun p => matchPattern goMatch name p) <;> simp
          rw [List.any_eq_true] at hany'
          exact Or.inr hany'
      · intro p hp
        have h3' : excl.any (fun p => matchPattern goMatch name p) = false := by
          revert h3
          cases excl.any (fun p => matchPattern goMatch name p) <;> simp
        rw [List.any_eq_false] at h3'
        have := h3' p hp
        revert this
        cases matchPattern goMatch name p <;> simp
    · intro _; rfl

/-- Witness for claim C6: a pattern consisting of a lone open bracket is
an invalid glob and counts as a non-match. -/
theorem scan_filter_iff_w :
    matchPattern (fun p _ => if p = ['['] then none else some true)
      ("a.md".toList) ['['] = false :=
  (scan_filter_iff (fun p _ => if p = ['['] then none else some true)
    [] [] ("a.md".toList)).2 ['['] ("a.md".toList) (by simp)

theorem nameLt_asymm (a b : MarkdownFile) (h : nameLt a b = true) :
    nameLt b a = false :=
  lexLt_asymm _ _ h

theorem nameLt_negtrans (a b c : MarkdownFile) (h1 : nameLt a b = false)
    (h2 : nameLt b c = false) : nameLt a c = false :=
  lexLt_negtrans _ _ _ h1 h2

theorem modLt_asymm (a b : MarkdownFile)
    (h : decide (a.modTime < b.modTime) = true) :
    decide (b.modTime < a.modTime) = false := by
  simp at h ⊢; omega

theorem modLt_negtrans (a b c : MarkdownFile)
    (h1 : decide (a.modTime < b.modTime) = false)
    (h2 : decide (b.modTime < c.modTime) = false) :
    decide (a.modTime < c.modTime) = false := by
  simp at h1 h2 ⊢; omega

theorem sizeLt_asymm (a b : MarkdownFile)
    (h : decide (a.size < b.size) = true) :
    decide (b.size < a.size) = false := by
  simp at h ⊢; omega

theorem sizeLt_negtrans (a b c : MarkdownFile)
    (h1 : decide (a.size < b.size) = false)
    (h2 : decide (b.size < c.size) = false) :
    decide (a.size < c.size) = false := by
  simp at h1 h2 ⊢; omega

/-- Claim C7: each selector sorts into non-decreasing order of its key
(name lexicographically, then timestamp, then byte size), and sorting is
idempotent for every selector. -/
theorem sort_nondecreasing_idem (files : List MarkdownFile) :
    (SortMarkdownFiles files ("filename".toList)).Pairwise
      (fun x y => lexLt y.name x.name = false) ∧
    (SortMarkdownFiles files ("modified".toList)).Pairwise
      (fun x y => x.modTime ≤ y.modTime) ∧
    (SortMarkdownFiles files ("size".toList)).Pairwise
      (fun x y => x.size ≤ y.size) ∧
    ∀ order, SortMarkdownFiles (SortMarkdownFiles files order) order =
      SortMarkdownFiles files order := by
  refine ⟨?_, ?_, ?_, ?_⟩
  · rw [SortMarkdownFiles, if_pos rfl]
    exact sortBy_pairwise nameLt_asymm nameLt_negtrans files
  · rw [SortMarkdownFiles, if_neg (by decide), if_pos rfl]
    refine (sortBy_pairwise modLt_asymm modLt_negtrans files).imp ?_
    intro a b h
    simp at h
    omega
  · rw [SortMarkdownFiles, if_neg (by decide), if_neg (by decide), if_pos rfl]
    refine (sortBy_pairwise sizeLt_asymm sizeLt_negtrans files).imp ?_
    intro a b h
    simp at h
    omega
  · intro order
    by_cases e1 : order = "filename".toList
    · simp only [SortMarkdownFiles, e1, if_pos rfl]
      exact sortBy_idem nameLt_asymm nameLt_negtrans files
    · by_cases e2 : order = "modified".toList
      · simp only [SortMarkdownFiles, e1, e2, if_false, if_pos rfl,
          if_neg (show ¬ ("modified".toList = "filename".toList) by decide)]
        exact sortBy_idem modLt_asymm modLt_negtrans files
      · by_cases e3 : order = "size".toList
        · simp only [SortMarkdownFiles, e1, e2, e3, if_false, if_pos rfl,
            if_neg (show ¬ ("size".toList = "filename".toList) by decide),
            if_neg (show ¬ ("size".toList = "modified".toList) by decide)]
          exact sortBy_idem sizeLt_asymm sizeLt_negtrans files
        · by_cases e4 : order = "custom".toList
          · simp only [SortMarkdownFiles, e1, e2, e3, e4, if_false, if_pos rfl,
              if_neg (show ¬ ("custom".toList = "filename".toList) by decide),
              if_neg (show ¬ ("custom".toList = "modified".toList) by decide),
              if_neg (show ¬ ("custom".toList = "size".toList) by decide)]
            exact sortBy_idem nameLt_asymm nameLt_negtrans files
          · simp only [SortMarkdownFiles, e1, e2, e3, e4, if_false]
            exact sortBy_idem nameLt_asymm nameLt_negtrans files

/-- Claim C8: a file whose read fails contributes nothing to the TOC and
raises no error there (generation continues with the remaining files),
while the same failure during the body merge aborts the whole merge. -/
theorem read_error_toc_skip_body_abort :
    (∀ (args : MergeArgs) (fs₁ fs₂ : List (Option (List Char))),
      writeTOCModel args (fs₁ ++ none :: fs₂) = writeTOCModel args (fs₁ ++ fs₂)) ∧
    (∀ (args : MergeArgs) (fs₁ fs₂ : List (Option (List Char))),
      mergeBody args (fs₁ ++ none :: fs₂) = none) := by
  constructor
  · intro args fs₁ fs₂
    induction fs₁ with
    | nil => simp [writeTOCModel]
    | cons f fs ih =>
      cases f with
      | none => simpa [writeTOCModel] using ih
      | some c =>
        simp only [List.cons_append, writeTOCModel, List.append_eq]
        rw [ih]
  · intro args fs₁ fs₂
    induction fs₁ with
    | nil => simp [mergeBody, mergeFileModel]
    | cons f fs ih =>
      cases f with
      | none => simp [mergeBody, mergeFileModel]
      | some c =>
        simp only [List.cons_append, mergeBody, List.append_eq]
        rw [ih]
        simp [mergeFileModel]

/-- Claim C9: sorting with the unimplemented custom selector is exactly
filename sorting, and so is sorting with any unrecognized selector. -/
theorem custom_order_fallback (files : List MarkdownFile) :
    SortMarkdownFiles files ("custom".toList) =
      SortMarkdownFiles files ("filename".toList) ∧
    ∀ order, order ≠ "filename".toList → order ≠ "modified".toList →
      order ≠ "size".toList → order ≠ "custom".toList →
      SortMarkdownFiles files order = SortMarkdownFiles files ("filename".toList) := by
  constructor
  · rw [SortMarkdownFiles, if_neg (by decide), if_neg (by decide),
      if_neg (by decide), if_pos rfl, SortMarkdownFiles, if_pos rfl]
  · intro order h1 h2 h3 h4
    rw [SortMarkdownFiles, if_neg h1, if_neg h2, if_neg h3, if_neg h4,
      SortMarkdownFiles, if_pos rfl]

/-- Witness for claim C9, at a concrete unrecognized selector. -/
theorem custom_order_fallback_w :
    SortMarkdownFiles [] ("zzz".toList) = SortMarkdownFiles [] ("filename".toList) :=
  (custom_order_fallback []).2 ("zzz".toList) (by decide) (by decide)
    (by decide) (by decide)

/-- Claim C10: the TOC computation reads only the base level and TOC
depth — it is independent of the adjust-headers flag — so with the flag
off the TOC filters and indents for levels the body does not have: for
the document consisting of a level-2 header with base level 2, the TOC
line is indented as for adjusted level 3 while the unadjusted body keeps
the header at level 2 (adjustment would have emitted level 3). -/
theorem toc_ignores_adjust_flag :
    (∀ (b d : Nat) (a₁ a₂ : Bool) (s₁ s₂ : List Char)
      (files : List (Option (List Char))),
      writeTOCModel ⟨b, d, a₁, s₁⟩ files = writeTOCModel ⟨b, d, a₂, s₂⟩ files) ∧
    writeTOCModel ⟨2, 2, false, []⟩ [some ("## B".toList)] =
      some ["  - [B](#b)".toList] ∧
    mergeFileModel ⟨2, 2, false, []⟩ (some ("## B".toList)) =
      some ("## B\n".toList) ∧
    countHashes ("## B".toList) = 2 ∧
    adjustHeaderLevels ("## B".toList) 2 = "### B".toList := by
  refine ⟨?_, by decide, by decide, by decide, by decide⟩
  intro b d a₁ a₂ s₁ s₂ files
  induction files with
  | nil => rfl
  | cons f fs ih =>
    cases f with
    | none => simpa [writeTOCModel] using ih
    | some c =>
      simp only [writeTOCModel]
      rw [ih]

end Doc
